import Mathlib

/-!
Verification of the URL text fetcher's core extraction algorithms.

The program downloads a page and either extracts readable text
(`fetch_url_text`, via the helper `_clean_body`) or collects hyperlink
targets (`fetch_page_links`).  Network retrieval and HTML parsing are
external collaborators (requests / BeautifulSoup); the embedding starts
at the parsed document tree, modelled by `Node`, and renders each
processing step of the source faithfully:

* `_clean_body`: decompose every `script`/`style`/`noscript`/`header`/
  `footer`/`nav` element (`pruneNodes`), locate the `body` element,
  falling back to the whole document (`findBodyNodes`), join the
  stripped text runs (`strippedNodes`, `joinWords`) and re-normalize
  whitespace (Python's `" ".join(cleaned.split())`, here `normWs`).
* `fetch_url_text`: `_clean_body` followed by the raw slice
  `cleaned[:max_chars]`.
* `fetch_page_links`: `[a["href"] for a in soup.find_all("a", href=True)]`
  over the unpruned tree, in document (pre-)order.

Python strings are sequences of code points, modelled as `List Char`;
`isWs` models Python's whitespace class (the ASCII whitespace
characters recognised by `str.strip()` / `str.split()`).
-/

namespace UrlTextFetch

/-- Whitespace, as Python's `str.strip` / `str.split` classify ASCII
characters. -/
def isWs (c : Char) : Bool :=
  c = ' ' || c = '\t' || c = '\n' || c = '\r' || c = '\x0B' || c = '\x0C'

/-- Python `str.strip()` on a list of characters: drop whitespace from
both ends. -/
def stripChars (cs : List Char) : List Char :=
  ((cs.dropWhile isWs).reverse.dropWhile isWs).reverse

/-- Scanner for Python `str.split()` with no separator; `acc` holds the
current in-progress word, reversed. -/
def splitWsGo : List Char → List Char → List (List Char)
  | [], acc => if acc.isEmpty then [] else [acc.reverse]
  | c :: cs, acc =>
      if isWs c then
        (if acc.isEmpty then [] else [acc.reverse]) ++ splitWsGo cs []
      else
        splitWsGo cs (c :: acc)

/-- Python `str.split()` with no separator: the maximal runs of
non-whitespace characters, in order, with no empty entries. -/
def splitWs (cs : List Char) : List (List Char) := splitWsGo cs []

/-- Python `" ".join(...)` at the character level. -/
def joinWords : List (List Char) → List Char
  | [] => []
  | [w] => w
  | w :: ws => w ++ ' ' :: joinWords ws

/-- The source's whitespace normalisation `" ".join(cleaned.split())`
at the character level. -/
def normWs (cs : List Char) : List Char := joinWords (splitWs cs)

/-- The source's whitespace normalisation step on strings. -/
def normalizeWs (s : String) : String := String.mk (normWs s.data)

/-- A parsed markup node: a text run, or an element with a tag name,
attributes and children.  A document is its list of top-level nodes. -/
inductive Node where
  | text (s : String) : Node
  | elem (tag : String) (attrs : List (String × String)) (children : List Node) : Node

/-- The tag names decomposed by `_clean_body`:
`soup.find_all(["script", "style", "noscript", "header", "footer", "nav"])`. -/
def boilerplateTags : List String :=
  ["script", "style", "noscript", "header", "footer", "nav"]

mutual
/-- The `element.decompose()` loop of `_clean_body`: a boilerplate
element disappears with its whole subtree, any other node survives with
its children pruned recursively. -/
def pruneNode : Node → List Node
  | .text s => [.text s]
  | .elem tag attrs children =>
      if tag ∈ boilerplateTags then []
      else [.elem tag attrs (pruneNodes children)]

/-- `pruneNode` over a list of sibling nodes. -/
def pruneNodes : List Node → List Node
  | [] => []
  | n :: ns => pruneNode n ++ pruneNodes ns
end

mutual
/-- `soup.body`: the first element named `body`, in document
(pre-)order, at any depth. -/
def findBodyNode : Node → Option Node
  | .text _ => none
  | .elem tag attrs children =>
      if tag = "body" then some (.elem tag attrs children)
      else findBodyNodes children

/-- `findBodyNode` over a list of sibling nodes, first hit wins. -/
def findBodyNodes : List Node → Option Node
  | [] => none
  | n :: ns =>
      match findBodyNode n with
      | some b => some b
      | none => findBodyNodes ns
end

mutual
/-- `tag.stripped_strings`: every descendant text run, stripped, with
the runs that strip to nothing skipped, in document order. -/
def strippedNode : Node → List (List Char)
  | .text s => if (stripChars s.data).isEmpty then [] else [stripChars s.data]
  | .elem _ _ children => strippedNodes children

/-- `strippedNode` over a list of sibling nodes. -/
def strippedNodes : List Node → List (List Char)
  | [] => []
  | n :: ns => strippedNode n ++ strippedNodes ns
end

/-- `_clean_body`: prune boilerplate, scope to `body` (falling back to
the document), join the stripped strings with single spaces, then
re-normalize whitespace. -/
def clean_body (doc : List Node) : String :=
  let pruned := pruneNodes doc
  let frags :=
    match findBodyNodes pruned with
    | some b => strippedNode b
    | none => strippedNodes pruned
  String.mk (normWs (joinWords frags))

/-- The text-extraction operation after the download: `_clean_body`
followed by the raw slice `cleaned[:max_chars]`. -/
def fetch_url_text (doc : List Node) (max_chars : Nat) : String :=
  String.mk ((clean_body doc).data.take max_chars)

/-- First value bound to an attribute name, as the parser keeps the
first occurrence of a duplicated attribute. -/
def lookupAttr : List (String × String) → String → Option String
  | [], _ => none
  | (k, v) :: rest, key => if k = key then some v else lookupAttr rest key

mutual
/-- `soup.find_all("a", href=True)` followed by `a["href"]`: the `href`
value of every anchor element, in document (pre-)order, over the
unpruned tree. -/
def linksNode : Node → List String
  | .text _ => []
  | .elem tag attrs children =>
      (if tag = "a" then
        match lookupAttr attrs "href" with
        | some v => [v]
        | none => []
      else []) ++ linksNodes children

/-- `linksNode` over a list of sibling nodes. -/
def linksNodes : List Node → List String
  | [] => []
  | n :: ns => linksNode n ++ linksNodes ns
end

/-- The link-collection operation after the download. -/
def fetch_page_links (doc : List Node) : List String := linksNodes doc

/-! ### Characterisation of `splitWs` by runs -/

theorem splitWs_nil : splitWs [] = [] := rfl

theorem splitWsGo_acc (cs : List Char) : ∀ (a : Char) (as : List Char),
    splitWsGo cs (a :: as) =
      ((a :: as).reverse ++ cs.takeWhile (fun d => !isWs d)) ::
        splitWsGo (cs.dropWhile (fun d => !isWs d)) [] := by
  induction cs with
  | nil => intro a as; simp [splitWsGo]
  | cons c cs ih =>
    intro a as
    by_cases hc : isWs c = true
    · simp [splitWsGo, hc]
    · simp only [List.takeWhile_cons, List.dropWhile_cons, splitWsGo, hc,
        Bool.not_false, if_true, if_false, ite_true, ite_false]
      rw [ih c (a :: as)]
      simp

theorem splitWsGo_acc_ne (cs acc : List Char) (h : acc ≠ []) :
    splitWsGo cs acc =
      (acc.reverse ++ cs.takeWhile (fun d => !isWs d)) ::
        splitWsGo (cs.dropWhile (fun d => !isWs d)) [] := by
  cases acc with
  | nil => exact absurd rfl h
  | cons a as => exact splitWsGo_acc cs a as

theorem splitWs_cons_ws (c : Char) (cs : List Char) (hc : isWs c = true) :
    splitWs (c :: cs) = splitWs cs := by
  simp [splitWs, splitWsGo, hc]

theorem splitWs_cons_word (c : Char) (cs : List Char) (hc : isWs c = false) :
    splitWs (c :: cs) =
      (c :: cs.takeWhile (fun d => !isWs d)) ::
        splitWs (cs.dropWhile (fun d => !isWs d)) := by
  show splitWsGo (c :: cs) [] = _
  simp only [splitWsGo, hc, if_false, ite_false]
  rw [splitWsGo_acc cs c []]
  rfl

theorem takeWhile_append_of_all {α : Type} {p : α → Bool} (w r : List α)
    (h : ∀ c ∈ w, p c = true) :
    (w ++ r).takeWhile p = w ++ r.takeWhile p := by
  induction w with
  | nil => simp
  | cons c cs ih =>
    have hc := h c (by simp)
    simp [List.takeWhile_cons, hc, ih (fun d hd => h d (by simp [hd]))]

theorem dropWhile_append_of_all {α : Type} {p : α → Bool} (w r : List α)
    (h : ∀ c ∈ w, p c = true) :
    (w ++ r).dropWhile p = r.dropWhile p := by
  induction w with
  | nil => simp
  | cons c cs ih =>
    have hc := h c (by simp)
    simp [List.dropWhile_cons, hc, ih (fun d hd => h d (by simp [hd]))]

theorem splitWsGo_word (w : List Char) (hw : ∀ c ∈ w, isWs c = false) :
    ∀ cs acc, splitWsGo (w ++ cs) acc = splitWsGo cs (w.reverse ++ acc) := by
  induction w with
  | nil => intro cs acc; simp
  | cons c cs ih =>
    intro rest acc
    have hc := hw c (by simp)
    show splitWsGo (c :: (cs ++ rest)) acc = _
    simp only [splitWsGo, hc, if_false, ite_false]
    rw [ih (fun d hd => hw d (by simp [hd])) rest (c :: acc)]
    simp

theorem splitWs_word (w cs : List Char) (hne : w ≠ [])
    (hw : ∀ c ∈ w, isWs c = false) :
    splitWs (w ++ cs) =
      (w ++ cs.takeWhile (fun d => !isWs d)) ::
        splitWs (cs.dropWhile (fun d => !isWs d)) := by
  show splitWsGo (w ++ cs) [] = _
  rw [splitWsGo_word w hw cs []]
  rw [splitWsGo_acc_ne cs (w.reverse ++ []) (by simp [hne])]
  simp
  rfl

theorem splitWs_dropWhile_ws (cs : List Char) :
    splitWs (cs.dropWhile isWs) = splitWs cs := by
  induction cs with
  | nil => rfl
  | cons c cs ih =>
    by_cases hc : isWs c = true
    · rw [List.dropWhile_cons]
      simp only [hc, if_true, ite_true]
      rw [ih, splitWs_cons_ws c cs hc]
    · rw [List.dropWhile_cons]
      simp [hc]

theorem length_dropWhile_le (p : Char → Bool) (l : List Char) :
    (l.dropWhile p).length ≤ l.length := by
  induction l with
  | nil => simp
  | cons a l ih =>
    rw [List.dropWhile_cons]
    split
    · exact Nat.le_succ_of_le ih
    · simp

/-- Every word produced by `splitWs` is non-empty and free of
whitespace characters. -/
theorem splitWs_good : ∀ cs : List Char,
    ∀ w ∈ splitWs cs, w ≠ [] ∧ ∀ c ∈ w, isWs c = false
  | [] => by simp [splitWs_nil]
  | c :: cs => by
    by_cases hc : isWs c = true
    · rw [splitWs_cons_ws c cs hc]
      exact splitWs_good cs
    · rw [splitWs_cons_word c cs (by simpa using hc)]
      intro w hw
      rcases List.mem_cons.mp hw with hw | hw
      · subst hw
        refine ⟨by simp, ?_⟩
        intro d hd
        rcases List.mem_cons.mp hd with hd | hd
        · subst hd; simpa using hc
        · have := List.mem_takeWhile_imp hd
          simpa using this
      · exact splitWs_good (cs.dropWhile (fun d => !isWs d)) w hw
termination_by cs => cs.length
decreasing_by
  all_goals simp only [List.length_cons]
  · exact Nat.lt_succ_of_le (Nat.le_refl _)
  · exact Nat.lt_succ_of_le (length_dropWhile_le _ _)

theorem joinWords_cons_cons (w v : List Char) (ws : List (List Char)) :
    joinWords (w :: v :: ws) = w ++ ' ' :: joinWords (v :: ws) := rfl

theorem splitWs_joinWords (ws : List (List Char))
    (h : ∀ w ∈ ws, w ≠ [] ∧ ∀ c ∈ w, isWs c = false) :
    splitWs (joinWords ws) = ws := by
  induction ws with
  | nil => rfl
  | cons w ws ih =>
    obtain ⟨hne, hw⟩ := h w (by simp)
    cases ws with
    | nil =>
      have := splitWs_word w [] hne hw
      simpa [joinWords] using this
    | cons v vs =>
      rw [joinWords_cons_cons]
      rw [splitWs_word w (' ' :: joinWords (v :: vs)) hne hw]
      have hsp : isWs ' ' = true := by decide
      have h1 : List.takeWhile (fun d => !isWs d) (' ' :: joinWords (v :: vs)) = [] := by
        simp [List.takeWhile_cons, hsp]
      have h2 : List.dropWhile (fun d => !isWs d) (' ' :: joinWords (v :: vs)) =
          ' ' :: joinWords (v :: vs) := by
        simp [List.dropWhile_cons, hsp]
      rw [h1, h2, splitWs_cons_ws ' ' _ hsp, ih (fun u hu => h u (by simp [hu]))]
      simp

/-- Claim C7: re-normalising an already-normalised string is a no-op:
the whitespace-normalisation step `" ".join(s.split())` of `_clean_body`
is idempotent on every input string. -/
theorem normalizeWs_idempotent (s : String) :
    normalizeWs (normalizeWs s) = normalizeWs s := by
  show String.mk (normWs (normWs s.data)) = String.mk (normWs s.data)
  unfold normWs
  rw [splitWs_joinWords _ (splitWs_good s.data)]

/-! ### The spec's formulation of whitespace normalisation

The spec describes step 6 as: collapse any run of whitespace into a
single space, then trim leading/trailing whitespace.  `collapseRuns`
and `stripChars` render those words directly; the development proves
this equal to the source's `" ".join(cleaned.split())` (`normWs`). -/

/-- Collapse every maximal run of whitespace characters into a single
space, leaving other characters unchanged. -/
def collapseRuns : List Char → List Char
  | [] => []
  | c :: cs =>
      if isWs c then ' ' :: collapseRuns (cs.dropWhile isWs)
      else c :: collapseRuns cs
termination_by cs => cs.length
decreasing_by
  · exact Nat.lt_succ_of_le (length_dropWhile_le _ _)
  · exact Nat.lt_succ_of_le (Nat.le_refl _)

/-- Whether the last character exists and is whitespace. -/
def endsWs (cs : List Char) : Bool :=
  match cs.reverse with
  | [] => false
  | c :: _ => isWs c

theorem collapseRuns_nil : collapseRuns [] = [] := by simp [collapseRuns]

theorem collapseRuns_cons_ws (c : Char) (cs : List Char) (hc : isWs c = true) :
    collapseRuns (c :: cs) = ' ' :: collapseRuns (cs.dropWhile isWs) := by
  simp [collapseRuns, hc]

theorem collapseRuns_cons_word (c : Char) (cs : List Char) (hc : isWs c = false) :
    collapseRuns (c :: cs) = c :: collapseRuns cs := by
  simp [collapseRuns, hc]

theorem collapseRuns_word (w r : List Char) (hw : ∀ c ∈ w, isWs c = false) :
    collapseRuns (w ++ r) = w ++ collapseRuns r := by
  induction w with
  | nil => simp
  | cons c cs ih =>
    rw [List.cons_append, collapseRuns_cons_word c _ (hw c (by simp))]
    rw [ih (fun d hd => hw d (by simp [hd]))]
    rfl

theorem dropWhile_head_false {p : Char → Bool} :
    ∀ l : List Char, ∀ x, (l.dropWhile p).head? = some x → p x = false := by
  intro l
  induction l with
  | nil => simp
  | cons a l ih =>
    intro x hx
    rw [List.dropWhile_cons] at hx
    cases hpa : p a with
    | true => rw [hpa] at hx; simp at hx; exact ih x hx
    | false =>
      rw [hpa] at hx
      simp at hx
      rw [← hx]
      exact hpa

theorem endsWs_append (xs ys : List Char) (h : ys ≠ []) :
    endsWs (xs ++ ys) = endsWs ys := by
  unfold endsWs
  rw [List.reverse_append]
  cases hys : ys.reverse with
  | nil =>
    exact absurd (List.reverse_eq_nil_iff.mp hys) h
  | cons c t => simp

theorem endsWs_of_all_ws (l : List Char) (hne : l ≠ [])
    (h : ∀ c ∈ l, isWs c = true) : endsWs l = true := by
  unfold endsWs
  cases hl : l.reverse with
  | nil => exact absurd (List.reverse_eq_nil_iff.mp hl) hne
  | cons c t =>
    have hc : c ∈ l := by
      rw [← List.mem_reverse, hl]
      simp
    simpa using h c hc

theorem endsWs_of_all_nonws (l : List Char)
    (h : ∀ c ∈ l, isWs c = false) : endsWs l = false := by
  unfold endsWs
  cases hl : l.reverse with
  | nil => rfl
  | cons c t =>
    have hc : c ∈ l := by
      rw [← List.mem_reverse, hl]
      simp
    simpa using h c hc

theorem joinWords_head (ws : List (List Char))
    (h : ∀ w ∈ ws, w ≠ [] ∧ ∀ c ∈ w, isWs c = false) (hne : ws ≠ []) :
    ∃ c t, joinWords ws = c :: t ∧ isWs c = false := by
  cases ws with
  | nil => exact absurd rfl hne
  | cons w vs =>
    obtain ⟨hwne, hw⟩ := h w (by simp)
    obtain ⟨a, as, rfl⟩ := List.exists_cons_of_ne_nil hwne
    cases vs with
    | nil => exact ⟨a, as, rfl, hw a (by simp)⟩
    | cons v vs2 =>
      refine ⟨a, as ++ ' ' :: joinWords (v :: vs2), ?_, hw a (by simp)⟩
      rw [joinWords_cons_cons]
      rfl

theorem joinWords_last (ws : List (List Char))
    (h : ∀ w ∈ ws, w ≠ [] ∧ ∀ c ∈ w, isWs c = false) (hne : ws ≠ []) :
    ∃ c t, (joinWords ws).reverse = c :: t ∧ isWs c = false := by
  induction ws with
  | nil => exact absurd rfl hne
  | cons w vs ih =>
    obtain ⟨hwne, hw⟩ := h w (by simp)
    cases vs with
    | nil =>
      show ∃ c t, w.reverse = c :: t ∧ isWs c = false
      cases hr : w.reverse with
      | nil => exact absurd (List.reverse_eq_nil_iff.mp hr) hwne
      | cons c t =>
        have hc : c ∈ w := by
          rw [← List.mem_reverse, hr]
          simp
        exact ⟨c, t, rfl, hw c hc⟩
    | cons v vs2 =>
      obtain ⟨c, t, hct, hc⟩ := ih (fun u hu => h u (by simp [hu])) (by simp)
      refine ⟨c, t ++ ' ' :: w.reverse, ?_, hc⟩
      rw [joinWords_cons_cons, List.reverse_append, List.reverse_cons, hct]
      simp

theorem stripChars_pads (J la ta : List Char)
    (hla : ∀ c ∈ la, isWs c = true) (hta : ∀ c ∈ ta, isWs c = true)
    (hhead : ∃ c t, J = c :: t ∧ isWs c = false)
    (hlast : ∃ c t, J.reverse = c :: t ∧ isWs c = false) :
    stripChars (la ++ J ++ ta) = J := by
  obtain ⟨c, t, hJ, hc⟩ := hhead
  obtain ⟨d, u, hJr, hd⟩ := hlast
  unfold stripChars
  rw [List.append_assoc, dropWhile_append_of_all la (J ++ ta) hla]
  have h1 : (J ++ ta).dropWhile isWs = J ++ ta := by
    rw [hJ, List.cons_append, List.dropWhile_cons]
    simp [hc]
  rw [h1, List.reverse_append]
  rw [dropWhile_append_of_all ta.reverse J.reverse
    (fun x hx => hta x (List.mem_reverse.mp hx))]
  have h2 : J.reverse.dropWhile isWs = J.reverse := by
    rw [hJr, List.dropWhile_cons]
    simp [hd]
  rw [h2, List.reverse_reverse]

/-- On input with no leading whitespace, collapsing runs yields the
joined split words, plus one trailing space exactly when the input ends
in whitespace. -/
theorem collapseRuns_eq : ∀ cs : List Char,
    (∀ c, cs.head? = some c → isWs c = false) →
    collapseRuns cs = joinWords (splitWs cs) ++ (if endsWs cs then [' '] else [])
  | [] => by
    intro _
    simp [collapseRuns_nil, splitWs_nil, joinWords, endsWs]
  | c :: cs => by
    intro hhead
    have hc : isWs c = false := hhead c rfl
    have htw : ∀ d ∈ cs.takeWhile (fun d => !isWs d), isWs d = false := by
      intro d hd
      have := List.mem_takeWhile_imp hd
      simpa using this
    have hword : ∀ d ∈ c :: cs.takeWhile (fun d => !isWs d), isWs d = false := by
      intro d hd
      rcases List.mem_cons.mp hd with hd | hd
      · subst hd; exact hc
      · exact htw d hd
    have hdecomp : (c :: cs.takeWhile (fun d => !isWs d)) ++
        cs.dropWhile (fun d => !isWs d) = c :: cs := by
      rw [List.cons_append, List.takeWhile_append_dropWhile]
    have hcoll : collapseRuns (c :: cs) =
        (c :: cs.takeWhile (fun d => !isWs d)) ++
          collapseRuns (cs.dropWhile (fun d => !isWs d)) := by
      conv_lhs => rw [← hdecomp]
      exact collapseRuns_word _ _ hword
    rw [hcoll, splitWs_cons_word c cs hc]
    cases hdw : cs.dropWhile (fun d => !isWs d) with
    | nil =>
      rw [collapseRuns_nil, splitWs_nil]
      have hend : endsWs (c :: cs) = false := by
        rw [← hdecomp, hdw, List.append_nil]
        exact endsWs_of_all_nonws _ hword
      rw [hend]
      simp [joinWords]
    | cons d r2 =>
      have hd : isWs d = true := by
        have := dropWhile_head_false (p := fun d => !isWs d) cs d (by rw [hdw]; rfl)
        simpa using this
      have hcoll2 : collapseRuns (d :: r2) = ' ' :: collapseRuns (r2.dropWhile isWs) :=
        collapseRuns_cons_ws d r2 hd
      have hrhead : ∀ x, (r2.dropWhile isWs).head? = some x → isWs x = false :=
        fun x hx => dropWhile_head_false (p := isWs) r2 x hx
      have hrec := collapseRuns_eq (r2.dropWhile isWs) hrhead
      have hsplit2 : splitWs (d :: r2) = splitWs (r2.dropWhile isWs) := by
        rw [splitWs_cons_ws d r2 hd, splitWs_dropWhile_ws r2]
      rw [hcoll2, hrec, hsplit2]
      cases hr : r2.dropWhile isWs with
      | nil =>
        have hr2 : ∀ x ∈ r2, isWs x = true := by
          intro x hx
          exact List.dropWhile_eq_nil_iff.mp hr x hx
        have hend : endsWs (c :: cs) = true := by
          rw [← hdecomp, hdw]
          rw [endsWs_append _ _ (by simp)]
          exact endsWs_of_all_ws (d :: r2) (by simp)
            (by
              intro x hx
              rcases List.mem_cons.mp hx with hx | hx
              · subst hx; exact hd
              · exact hr2 x hx)
        rw [hend, splitWs_nil]
        simp [joinWords, endsWs]
      | cons e r3 =>
        have he : isWs e = false := hrhead e (by rw [hr]; rfl)
        have hrne : splitWs (e :: r3) ≠ [] := by
          rw [splitWs_cons_word e r3 he]
          simp
        have hend : endsWs (c :: cs) = endsWs (e :: r3) := by
          have hr2decomp : r2.takeWhile isWs ++ (e :: r3) = r2 := by
            rw [← hr, List.takeWhile_append_dropWhile]
          rw [← hdecomp, hdw, ← hr2decomp]
          rw [show (c :: cs.takeWhile (fun d => !isWs d)) ++
              (d :: (r2.takeWhile isWs ++ (e :: r3))) =
              ((c :: cs.takeWhile (fun d => !isWs d)) ++
                (d :: r2.takeWhile isWs)) ++ (e :: r3) by simp]
          exact endsWs_append _ _ (by simp)
        rw [hend]
        cases hsw : splitWs (e :: r3) with
        | nil => exact absurd hsw hrne
        | cons v vs =>
          rw [joinWords_cons_cons]
          simp
termination_by cs => cs.length
decreasing_by
  have h1 := length_dropWhile_le isWs r2
  have h2 := length_dropWhile_le (fun d => !isWs d) cs
  rw [hdw] at h2
  simp only [List.length_cons] at h2 ⊢
  omega

/-- The spec's normalisation (collapse whitespace runs to single
spaces, then trim the ends) agrees with the source's
`" ".join(cleaned.split())` on every input. -/
theorem stripChars_collapseRuns_eq_normWs (cs : List Char) :
    stripChars (collapseRuns cs) = normWs cs := by
  cases cs with
  | nil => simp [collapseRuns_nil, stripChars, normWs, splitWs_nil, joinWords]
  | cons c cs =>
    by_cases hc : isWs c = true
    · rw [collapseRuns_cons_ws c cs hc]
      have hrhead : ∀ x, (cs.dropWhile isWs).head? = some x → isWs x = false :=
        fun x hx => dropWhile_head_false (p := isWs) cs x hx
      rw [collapseRuns_eq (cs.dropWhile isWs) hrhead]
      have hns : normWs (c :: cs) = joinWords (splitWs (cs.dropWhile isWs)) := by
        unfold normWs
        rw [splitWs_cons_ws c cs hc, splitWs_dropWhile_ws cs]
      rw [hns]
      cases hr : cs.dropWhile isWs with
      | nil =>
        rw [splitWs_nil]
        simp [joinWords, endsWs, stripChars, isWs]
      | cons e r3 =>
        have he : isWs e = false := hrhead e (by rw [hr]; rfl)
        have hgood := splitWs_good (e :: r3)
        have hne : splitWs (e :: r3) ≠ [] := by
          rw [splitWs_cons_word e r3 he]
          simp
        have hpads := stripChars_pads (joinWords (splitWs (e :: r3)))
          [' '] (if endsWs (e :: r3) then [' '] else [])
          (by intro x hx; simp at hx; subst hx; decide)
          (by
            intro x hx
            cases hew : endsWs (e :: r3) with
            | true => rw [hew] at hx; simp at hx; subst hx; decide
            | false => rw [hew] at hx; simp at hx)
          (joinWords_head _ hgood hne)
          (joinWords_last _ hgood hne)
        simpa using hpads
    · have hc2 : isWs c = false := by simpa using hc
      rw [collapseRuns_eq (c :: cs) (by intro x hx; simp at hx; subst hx; exact hc2)]
      have hgood := splitWs_good (c :: cs)
      have hne : splitWs (c :: cs) ≠ [] := by
        rw [splitWs_cons_word c cs hc2]
        simp
      have hpads := stripChars_pads (joinWords (splitWs (c :: cs)))
        [] (if endsWs (c :: cs) then [' '] else [])
        (by intro x hx; simp at hx)
        (by
          intro x hx
          cases hew : endsWs (c :: cs) with
          | true => rw [hew] at hx; simp at hx; subst hx; decide
          | false => rw [hew] at hx; simp at hx)
        (joinWords_head _ hgood hne)
        (joinWords_last _ hgood hne)
      have hn2 : normWs (c :: cs) = joinWords (splitWs (c :: cs)) := rfl
      rw [hn2]
      simpa using hpads

/-! ### Spec-side tree traversals and their agreement with the source -/

mutual
/-- Every text run in a subtree, raw, in document order. -/
def textRunsNode : Node → List String
  | .text s => [s]
  | .elem _ _ children => textRunsList children

/-- `textRunsNode` over a list of sibling nodes. -/
def textRunsList : List Node → List String
  | [] => []
  | n :: ns => textRunsNode n ++ textRunsList ns
end

mutual
theorem strippedNode_eq_runs (n : Node) :
    strippedNode n =
      ((textRunsNode n).map (fun s => stripChars s.data)).filter
        (fun t => !t.isEmpty) := by
  cases n with
  | text s =>
    show (if (stripChars s.data).isEmpty then [] else [stripChars s.data]) = _
    cases h : (stripChars s.data).isEmpty with
    | true => simp [textRunsNode, List.filter, h]
    | false => simp [textRunsNode, List.filter, h]
  | elem tag attrs children =>
    show strippedNodes children = _
    rw [strippedNodes_eq_runs children]
    rfl

theorem strippedNodes_eq_runs (l : List Node) :
    strippedNodes l =
      ((textRunsList l).map (fun s => stripChars s.data)).filter
        (fun t => !t.isEmpty) := by
  cases l with
  | nil => rfl
  | cons n ns =>
    show strippedNode n ++ strippedNodes ns = _
    rw [strippedNode_eq_runs n, strippedNodes_eq_runs ns]
    show _ = ((textRunsNode n ++ textRunsList ns).map _).filter _
    rw [List.map_append, List.filter_append]
end

/-- The spec's description of `extract_text` before truncation: prune
boilerplate subtrees, scope to the `body` element when present (else
the document root), collect every non-empty whitespace-trimmed text
run under the scope in document order, join the fragments with single
spaces, collapse every whitespace run to one space, and trim the ends. -/
def clean_body_spec (doc : List Node) : String :=
  let pruned := pruneNodes doc
  let runs :=
    match findBodyNodes pruned with
    | some b => textRunsNode b
    | none => textRunsList pruned
  let frags := (runs.map (fun s => stripChars s.data)).filter (fun t => !t.isEmpty)
  String.mk (stripChars (collapseRuns (joinWords frags)))

mutual
/-- Replace the contents of every boilerplate element, however deep,
by nothing, leaving every other node unchanged. -/
def scrubNode : Node → Node
  | .text s => .text s
  | .elem tag attrs children =>
      if tag ∈ boilerplateTags then .elem tag attrs []
      else .elem tag attrs (scrubNodes children)

/-- `scrubNode` over a list of sibling nodes. -/
def scrubNodes : List Node → List Node
  | [] => []
  | n :: ns => scrubNode n :: scrubNodes ns
end

mutual
theorem pruneNode_scrub (n : Node) : pruneNode (scrubNode n) = pruneNode n := by
  cases n with
  | text s => rfl
  | elem tag attrs children =>
    by_cases h : tag ∈ boilerplateTags
    · simp [scrubNode, pruneNode, h]
    · simp [scrubNode, pruneNode, h, pruneNodes_scrub children]

theorem pruneNodes_scrub (l : List Node) :
    pruneNodes (scrubNodes l) = pruneNodes l := by
  cases l with
  | nil => rfl
  | cons n ns =>
    show pruneNode (scrubNode n) ++ pruneNodes (scrubNodes ns) = _
    rw [pruneNode_scrub n, pruneNodes_scrub ns]
    simp [pruneNodes]
end

theorem clean_body_scrub (doc : List Node) :
    clean_body (scrubNodes doc) = clean_body doc := by
  unfold clean_body
  rw [pruneNodes_scrub doc]

mutual
/-- Every element node of a subtree, in document (pre-)order. -/
def allElemsNode : Node → List Node
  | .text _ => []
  | .elem tag attrs children => .elem tag attrs children :: allElemsList children

/-- `allElemsNode` over a list of sibling nodes. -/
def allElemsList : List Node → List Node
  | [] => []
  | n :: ns => allElemsNode n ++ allElemsList ns
end

/-- The spec's per-element contribution to link collection: an anchor
element carrying a reference attribute contributes its raw value, any
other element contributes nothing. -/
def anchorHref (n : Node) : Option String :=
  match n with
  | .text _ => none
  | .elem tag attrs _ => if tag = "a" then lookupAttr attrs "href" else none

mutual
theorem linksNode_eq (n : Node) :
    linksNode n = (allElemsNode n).filterMap anchorHref := by
  cases n with
  | text s => rfl
  | elem tag attrs children =>
    show (if tag = "a" then _ else []) ++ linksNodes children = _
    rw [linksNodes_eq children]
    show _ = List.filterMap anchorHref (Node.elem tag attrs children :: allElemsList children)
    rw [List.filterMap_cons]
    by_cases h : tag = "a"
    · simp only [anchorHref, h, if_true, ite_true]
      cases lookupAttr attrs "href" with
      | none => simp
      | some v => simp
    · simp only [anchorHref, h, if_false, ite_false]
      simp

theorem linksNodes_eq (l : List Node) :
    linksNodes l = (allElemsList l).filterMap anchorHref := by
  cases l with
  | nil => rfl
  | cons n ns =>
    show linksNode n ++ linksNodes ns = _
    rw [linksNode_eq n, linksNodes_eq ns]
    show _ = (allElemsNode n ++ allElemsList ns).filterMap anchorHref
    rw [List.filterMap_append]
end

/-- Anchor test on a node. -/
def isAnchor : Node → Bool
  | .text _ => false
  | .elem tag _ _ => tag = "a"

mutual
/-- Every text node of the subtree strips to the empty string. -/
def allWsNode : Node → Bool
  | .text s => (stripChars s.data).isEmpty
  | .elem _ _ children => allWsNodes children

/-- `allWsNode` over a list of sibling nodes. -/
def allWsNodes : List Node → Bool
  | [] => true
  | n :: ns => allWsNode n && allWsNodes ns
end

mutual
theorem strippedNode_of_allWs (n : Node) (h : allWsNode n = true) :
    strippedNode n = [] := by
  cases n with
  | text s =>
    have hs : (stripChars s.data).isEmpty = true := h
    show (if (stripChars s.data).isEmpty then [] else [stripChars s.data]) = []
    rw [hs]
    rfl
  | elem tag attrs children =>
    exact strippedNodes_of_allWs children h

theorem strippedNodes_of_allWs (l : List Node) (h : allWsNodes l = true) :
    strippedNodes l = [] := by
  cases l with
  | nil => rfl
  | cons n ns =>
    have h2 : allWsNode n = true ∧ allWsNodes ns = true := by
      simpa [allWsNodes] using h
    show strippedNode n ++ strippedNodes ns = []
    rw [strippedNode_of_allWs n h2.1, strippedNodes_of_allWs ns h2.2]
    rfl
end

theorem findBodyNodes_append (a b : List Node) :
    findBodyNodes (a ++ b) =
      match findBodyNodes a with
      | some x => some x
      | none => findBodyNodes b := by
  induction a with
  | nil => rfl
  | cons n ns ih =>
    rw [List.cons_append]
    show (match findBodyNode n with
      | some x => some x
      | none => findBodyNodes (ns ++ b)) = _
    cases hn : findBodyNode n with
    | some x => simp [findBodyNodes, hn]
    | none => simp [findBodyNodes, hn, ih]

mutual
theorem findBodyNode_prune (n : Node) (h : findBodyNode n = none) :
    findBodyNodes (pruneNode n) = none := by
  cases n with
  | text s => rfl
  | elem tag attrs children =>
    by_cases hb : tag = "body"
    · exact absurd h (by simp [findBodyNode, hb])
    · have hc : findBodyNodes children = none := by
        simpa [findBodyNode, hb] using h
      show findBodyNodes (if tag ∈ boilerplateTags then []
        else [Node.elem tag attrs (pruneNodes children)]) = none
      by_cases hbp : tag ∈ boilerplateTags
      · rw [if_pos hbp]
        rfl
      · rw [if_neg hbp]
        show (match findBodyNode (Node.elem tag attrs (pruneNodes children)) with
          | some b => some b
          | none => findBodyNodes []) = none
        have : findBodyNode (Node.elem tag attrs (pruneNodes children)) = none := by
          simp only [findBodyNode, hb, if_false, ite_false]
          exact findBodyNodes_prune children hc
        rw [this]
        rfl

theorem findBodyNodes_prune (l : List Node) (h : findBodyNodes l = none) :
    findBodyNodes (pruneNodes l) = none := by
  cases l with
  | nil => rfl
  | cons n ns =>
    have hn : findBodyNode n = none := by
      cases hfn : findBodyNode n with
      | none => rfl
      | some b =>
        exact absurd h (by simp [findBodyNodes, hfn])
    have hns : findBodyNodes ns = none := by
      have := h
      simp only [findBodyNodes, hn] at this
      exact this
    show findBodyNodes (pruneNode n ++ pruneNodes ns) = none
    rw [findBodyNodes_append, findBodyNode_prune n hn, findBodyNodes_prune ns hns]
end

/-! ### Invariants of the normalised output -/

/-- Every whitespace character in the list is a plain space. -/
def onlyPlainSpaces (cs : List Char) : Bool :=
  cs.all (fun c => !isWs c || c == ' ')

/-- No two adjacent characters are both spaces. -/
def noTwoSpaces : List Char → Bool
  | a :: b :: rest => !(a == ' ' && b == ' ') && noTwoSpaces (b :: rest)
  | _ => true

theorem mem_joinWords : ∀ (ws : List (List Char)) (c : Char),
    c ∈ joinWords ws → c = ' ' ∨ ∃ w ∈ ws, c ∈ w
  | [] => by simp [joinWords]
  | [w] => by
    intro c hc
    right
    exact ⟨w, by simp, by simpa [joinWords] using hc⟩
  | w :: v :: vs => by
    intro c hc
    rw [joinWords_cons_cons] at hc
    rcases List.mem_append.mp hc with hc | hc
    · right
      exact ⟨w, by simp, hc⟩
    · rcases List.mem_cons.mp hc with hc | hc
      · left
        exact hc
      · rcases mem_joinWords (v :: vs) c hc with h | ⟨u, hu, hcu⟩
        · left
          exact h
        · right
          exact ⟨u, List.mem_cons_of_mem w hu, hcu⟩

theorem joinWords_onlyPlain (ws : List (List Char))
    (h : ∀ w ∈ ws, w ≠ [] ∧ ∀ c ∈ w, isWs c = false) :
    onlyPlainSpaces (joinWords ws) = true := by
  rw [onlyPlainSpaces, List.all_eq_true]
  intro c hc
  rcases mem_joinWords ws c hc with hc2 | ⟨w, hw, hcw⟩
  · subst hc2
    decide
  · have := (h w hw).2 c hcw
    simp [this]

theorem beq_space_false (a : Char) (ha : isWs a = false) : (a == ' ') = false := by
  cases hab : a == ' ' with
  | false => rfl
  | true =>
    have : a = ' ' := by simpa using hab
    rw [this] at ha
    simp [isWs] at ha

theorem noTwoSpaces_word : ∀ w : List Char,
    (∀ c ∈ w, isWs c = false) → noTwoSpaces w = true
  | [] => by intro _; rfl
  | [_] => by intro _; rfl
  | a :: b :: rest => by
    intro h
    have ha2 : (a == ' ') = false := beq_space_false a (h a (by simp))
    show (!(a == ' ' && b == ' ') && noTwoSpaces (b :: rest)) = true
    rw [ha2]
    simp only [Bool.false_and, Bool.not_false, Bool.true_and]
    exact noTwoSpaces_word (b :: rest) (fun c hc => h c (by simp [hc]))

theorem mem_of_getLast (l : List Char) (a : Char) (h : l.getLast? = some a) :
    a ∈ l := by
  cases hl : l.reverse with
  | nil =>
    rw [List.reverse_eq_nil_iff.mp hl] at h
    simp at h
  | cons c t =>
    have hh : l.reverse.head? = some c := by rw [hl]; rfl
    rw [List.head?_reverse, h] at hh
    have hac : a = c := by simpa using hh
    have : a ∈ l.reverse := by
      rw [hl, hac]
      simp
    exact List.mem_reverse.mp this

theorem noTwoSpaces_append : ∀ xs ys : List Char,
    noTwoSpaces xs = true → noTwoSpaces ys = true →
    (∀ a b, xs.getLast? = some a → ys.head? = some b →
      (a == ' ' && b == ' ') = false) →
    noTwoSpaces (xs ++ ys) = true
  | [], ys => by
    intro _ hy _
    simpa using hy
  | [x], ys => by
    intro _ hy hb
    cases ys with
    | nil => rfl
    | cons y ys2 =>
      show (!(x == ' ' && y == ' ') && noTwoSpaces (y :: ys2)) = true
      rw [hb x y rfl rfl]
      simpa using hy
  | x1 :: x2 :: xs, ys => by
    intro hx hy hb
    have hx2 : (!(x1 == ' ' && x2 == ' ')) = true ∧ noTwoSpaces (x2 :: xs) = true := by
      simpa [noTwoSpaces] using hx
    show (!(x1 == ' ' && x2 == ' ') && noTwoSpaces ((x2 :: xs) ++ ys)) = true
    rw [hx2.1, Bool.true_and]
    exact noTwoSpaces_append (x2 :: xs) ys hx2.2 hy
      (fun a b ha hb2 => hb a b (by rw [List.getLast?_cons_cons]; exact ha) hb2)

theorem joinWords_noTwoSpaces : ∀ ws : List (List Char),
    (∀ w ∈ ws, w ≠ [] ∧ ∀ c ∈ w, isWs c = false) →
    noTwoSpaces (joinWords ws) = true
  | [] => by intro _; rfl
  | [w] => by
    intro h
    show noTwoSpaces w = true
    exact noTwoSpaces_word w (h w (by simp)).2
  | w :: v :: vs => by
    intro h
    rw [joinWords_cons_cons]
    obtain ⟨hwne, hw⟩ := h w (by simp)
    obtain ⟨c, t, hct, hc⟩ :=
      joinWords_head (v :: vs) (fun u hu => h u (by simp [hu])) (by simp)
    apply noTwoSpaces_append
    · exact noTwoSpaces_word w hw
    · rw [hct]
      show (!(' ' == ' ' && c == ' ') && noTwoSpaces (c :: t)) = true
      rw [beq_space_false c hc]
      simp only [Bool.and_false, Bool.not_false, Bool.true_and]
      rw [← hct]
      exact joinWords_noTwoSpaces (v :: vs) (fun u hu => h u (by simp [hu]))
    · intro a b ha hb
      have haw : a ∈ w := mem_of_getLast w a ha
      rw [beq_space_false a (hw a haw)]
      rfl

theorem noTwoSpaces_take : ∀ (l : List Char) (n : Nat),
    noTwoSpaces l = true → noTwoSpaces (l.take n) = true
  | [], _ => by
    intro _
    simp [noTwoSpaces]
  | _ :: _, 0 => by intro _; rfl
  | a :: rest, n + 1 => by
    intro h
    show noTwoSpaces (a :: rest.take n) = true
    cases rest with
    | nil =>
      rw [List.take_nil]
      rfl
    | cons b rest2 =>
      have h2 : (!(a == ' ' && b == ' ')) = true ∧ noTwoSpaces (b :: rest2) = true := by
        simpa [noTwoSpaces] using h
      cases n with
      | zero =>
        show noTwoSpaces [a] = true
        rfl
      | succ m =>
        show (!(a == ' ' && b == ' ') && noTwoSpaces (b :: rest2.take m)) = true
        rw [h2.1, Bool.true_and]
        exact noTwoSpaces_take (b :: rest2) (m + 1) h2.2

theorem onlyPlainSpaces_take (l : List Char) (n : Nat)
    (h : onlyPlainSpaces l = true) : onlyPlainSpaces (l.take n) = true := by
  rw [onlyPlainSpaces, List.all_eq_true] at h ⊢
  intro c hc
  exact h c (List.mem_of_mem_take hc)

theorem head_take (l : List Char) (n : Nat) (hn : 0 < n) :
    (l.take n).head? = l.head? := by
  cases l with
  | nil => simp
  | cons a t =>
    cases n with
    | zero => exact absurd hn (by simp)
    | succ m => rfl

theorem normWs_onlyPlain (cs : List Char) : onlyPlainSpaces (normWs cs) = true :=
  joinWords_onlyPlain _ (splitWs_good cs)

theorem normWs_noTwo (cs : List Char) : noTwoSpaces (normWs cs) = true :=
  joinWords_noTwoSpaces _ (splitWs_good cs)

theorem normWs_head (cs : List Char) :
    ∀ c, (normWs cs).head? = some c → isWs c = false := by
  intro c hc
  cases hsw : splitWs cs with
  | nil =>
    rw [normWs, hsw] at hc
    simp [joinWords] at hc
  | cons w ws =>
    obtain ⟨d, t, hdt, hd⟩ :=
      joinWords_head (w :: ws) (by rw [← hsw]; exact splitWs_good cs) (by simp)
    rw [normWs, hsw, hdt] at hc
    have hcd : d = c := by simpa using hc
    rw [← hcd]
    exact hd

theorem clean_body_data (doc : List Node) : ∃ cs, (clean_body doc).data = normWs cs :=
  ⟨_, rfl⟩

/-! ### The claims -/

/-- Claim C1: for every document and every positive budget, the string
returned by text extraction (`fetch_url_text`'s cleaning and
truncation) has length at most the budget. -/
theorem fetch_url_text_length_le (doc : List Node) (n : Nat) (hn : 0 < n) :
    (fetch_url_text doc n).length ≤ n := by
  show ((clean_body doc).data.take n).length ≤ n
  exact List.length_take_le n _

theorem fetch_url_text_length_le_witness :
    0 < 3 ∧ (fetch_url_text [Node.text "hello world"] 3).length ≤ 3 :=
  ⟨by decide, fetch_url_text_length_le [Node.text "hello world"] 3 (by decide)⟩

/-- Claim C2: a boilerplate (script/style/noscript/header/footer/nav)
element's subtree contributes nothing to text extraction: emptying the
contents of every such element, however deeply nested, leaves the
output unchanged for every budget. -/
theorem fetch_url_text_boilerplate_invariant (doc : List Node) (n : Nat) :
    fetch_url_text (scrubNodes doc) n = fetch_url_text doc n := by
  show String.mk ((clean_body (scrubNodes doc)).data.take n) = _
  rw [clean_body_scrub]
  rfl

/-- Claim C3: text extraction scopes to the `body` element when one
exists (else the document root), collects every non-empty trimmed text
run under that scope in document order, joins with single spaces,
collapses whitespace runs and trims the ends — `clean_body` equals the
spec's step-by-step description `clean_body_spec`. -/
theorem clean_body_refines (doc : List Node) :
    clean_body doc = clean_body_spec doc := by
  simp only [clean_body, clean_body_spec]
  rw [stripChars_collapseRuns_eq_normWs]
  cases h : findBodyNodes (pruneNodes doc) with
  | some b =>
    show String.mk (normWs (joinWords (strippedNode b))) =
      String.mk (normWs (joinWords
        (((textRunsNode b).map (fun s => stripChars s.data)).filter
          (fun t => !t.isEmpty))))
    rw [strippedNode_eq_runs b]
  | none =>
    show String.mk (normWs (joinWords (strippedNodes (pruneNodes doc)))) =
      String.mk (normWs (joinWords
        (((textRunsList (pruneNodes doc)).map (fun s => stripChars s.data)).filter
          (fun t => !t.isEmpty))))
    rw [strippedNodes_eq_runs]

/-- Claim C4: truncation is a raw character slice: for positive
budgets N ≤ M, extraction with budget N is the first N characters of
extraction with budget M. -/
theorem fetch_url_text_slice (doc : List Node) (N M : Nat) (hN : 0 < N)
    (hNM : N ≤ M) :
    fetch_url_text doc N = String.mk ((fetch_url_text doc M).data.take N) := by
  show String.mk ((clean_body doc).data.take N) =
    String.mk (((clean_body doc).data.take M).take N)
  rw [List.take_take, Nat.min_eq_left hNM]

theorem fetch_url_text_slice_witness :
    0 < 3 ∧ 3 ≤ 7 ∧ fetch_url_text [Node.text "hello world"] 3 =
      String.mk ((fetch_url_text [Node.text "hello world"] 7).data.take 3) :=
  ⟨by decide, by decide,
    fetch_url_text_slice [Node.text "hello world"] 3 7 (by decide) (by decide)⟩

/-- Claim C5: link collection traverses the full unpruned tree in
document order and returns the raw `href` value of every anchor
element, duplicates preserved, anchors without `href` skipped —
`fetch_page_links` equals the filterMap of `anchorHref` over all
elements in pre-order. -/
theorem fetch_page_links_spec (doc : List Node) :
    fetch_page_links doc = (allElemsList doc).filterMap anchorHref :=
  linksNodes_eq doc

/-- Claim C8: a parseable document with no `body` element and no
visible text (every text run surviving boilerplate pruning strips to
nothing) yields the empty string for every positive budget, with no
error. -/
theorem fetch_url_text_empty (doc : List Node) (n : Nat) (hn : 0 < n)
    (hbody : findBodyNodes doc = none)
    (htext : allWsNodes (pruneNodes doc) = true) :
    fetch_url_text doc n = "" := by
  have hb2 : findBodyNodes (pruneNodes doc) = none := findBodyNodes_prune doc hbody
  have hs : strippedNodes (pruneNodes doc) = [] := strippedNodes_of_allWs _ htext
  have hcb : clean_body doc = "" := by
    simp only [clean_body, hb2, hs]
    rfl
  show String.mk ((clean_body doc).data.take n) = ""
  rw [hcb]
  show String.mk (List.take n "".data) = ""
  rw [show "".data = ([] : List Char) from rfl, List.take_nil]

theorem fetch_url_text_empty_witness :
    0 < 5 ∧
    findBodyNodes [Node.elem "div" [] [Node.text "  \n "]] = none ∧
    allWsNodes (pruneNodes [Node.elem "div" [] [Node.text "  \n "]]) = true ∧
    fetch_url_text [Node.elem "div" [] [Node.text "  \n "]] 5 = "" :=
  ⟨by decide, rfl, rfl,
    fetch_url_text_empty [Node.elem "div" [] [Node.text "  \n "]] 5
      (by decide) rfl rfl⟩

/-- Claim C9: for every document and positive budget, the extraction
output contains no whitespace character other than a plain space, no
two adjacent spaces, and does not begin with whitespace: the
normalised form survives the raw slice. -/
theorem fetch_url_text_normalized (doc : List Node) (n : Nat) (hn : 0 < n) :
    onlyPlainSpaces (fetch_url_text doc n).data = true ∧
    noTwoSpaces (fetch_url_text doc n).data = true ∧
    ∀ c, (fetch_url_text doc n).data.head? = some c → isWs c = false := by
  obtain ⟨cs, hcs⟩ := clean_body_data doc
  have hd : (fetch_url_text doc n).data = (normWs cs).take n := by
    show (clean_body doc).data.take n = _
    rw [hcs]
  refine ⟨?_, ?_, ?_⟩
  · rw [hd]
    exact onlyPlainSpaces_take _ n (normWs_onlyPlain cs)
  · rw [hd]
    exact noTwoSpaces_take _ n (normWs_noTwo cs)
  · intro c hc
    rw [hd, head_take _ n hn] at hc
    exact normWs_head cs c hc

theorem fetch_url_text_normalized_witness :
    0 < 4 ∧
    (onlyPlainSpaces (fetch_url_text [Node.text " a \n b "] 4).data = true ∧
      noTwoSpaces (fetch_url_text [Node.text " a \n b "] 4).data = true ∧
      ∀ c, (fetch_url_text [Node.text " a \n b "] 4).data.head? = some c →
        isWs c = false) :=
  ⟨by decide, fetch_url_text_normalized [Node.text " a \n b "] 4 (by decide)⟩

mutual
/-- Remove every `href` attribute from every non-anchor element,
however deep; anchor elements keep their attributes. -/
def stripNonAnchorHrefNode : Node → Node
  | .text s => .text s
  | .elem tag attrs children =>
      if tag = "a" then .elem tag attrs (stripNonAnchorHrefNodes children)
      else .elem tag (attrs.filter (fun kv => !(kv.1 == "href")))
        (stripNonAnchorHrefNodes children)

/-- `stripNonAnchorHrefNode` over a list of sibling nodes. -/
def stripNonAnchorHrefNodes : List Node → List Node
  | [] => []
  | n :: ns => stripNonAnchorHrefNode n :: stripNonAnchorHrefNodes ns
end

mutual
theorem linksNode_stripNonAnchor (n : Node) :
    linksNode (stripNonAnchorHrefNode n) = linksNode n := by
  cases n with
  | text s => rfl
  | elem tag attrs children =>
    by_cases h : tag = "a"
    · simp only [stripNonAnchorHrefNode, h, if_true, ite_true, linksNode]
      rw [linksNodes_stripNonAnchor children]
    · simp only [stripNonAnchorHrefNode, h, if_false, ite_false, linksNode]
      rw [linksNodes_stripNonAnchor children]

theorem linksNodes_stripNonAnchor (l : List Node) :
    linksNodes (stripNonAnchorHrefNodes l) = linksNodes l := by
  cases l with
  | nil => rfl
  | cons n ns =>
    show linksNode (stripNonAnchorHrefNode n) ++
      linksNodes (stripNonAnchorHrefNodes ns) = _
    rw [linksNode_stripNonAnchor n, linksNodes_stripNonAnchor ns]
    simp [linksNodes]
end

/-- Claim C10: link collection considers only anchor elements: an
`href` attribute on any other element kind (for example `link`, `area`
or `base`) never contributes an entry — removing every `href` from
every non-anchor element leaves the result of `fetch_page_links`
unchanged, for every document. -/
theorem fetch_page_links_anchors_only (doc : List Node) :
    fetch_page_links (stripNonAnchorHrefNodes doc) = fetch_page_links doc :=
  linksNodes_stripNonAnchor doc

end UrlTextFetch
